import Mathlib

/-!
Verification of the Tic-Tac-Toe minimax / alpha-beta search engine
(src/Praktikum03/Games02.py) against its natural-language specification.

The Python module is shallowly embedded below.  Boards are lists of cells
(the Python code uses 9-element lists of the strings "X", "O", " ").
Python integers become Lean Int, node counters become Nat results threaded
through the recursion (the Python code increments a mutable counter once
per visited node; here every recursive call returns the number of nodes it
visited and callers add the contributions, which yields the same final
count).  The unbounded Python recursion is embedded with a fuel parameter;
the exported entry points run with fuel strictly larger than the number of
empty cells, which is enough for the recursion never to hit the fuel
bottom, and the search depth is bounded by the number of empty cells.
-/

namespace Games02

/-- Cells of the board: X, O, or E (the EMPTY string " " in the source). -/
inductive Cell
  | X
  | O
  | E
deriving DecidableEq, Repr

/-- INF, the large sentinel value used by the search (10 ** 9 in the source). -/
def INF : Int := 10 ^ 9

/-- WIN_LINES: the eight winning index triples (rows, columns, diagonals). -/
def WIN_LINES : List (Nat × Nat × Nat) :=
  [(0, 1, 2), (3, 4, 5), (6, 7, 8),
   (0, 3, 6), (1, 4, 7), (2, 5, 8),
   (0, 4, 8), (2, 4, 6)]

/-- initial_state: the empty 9-cell board. -/
def initial_state : List Cell := List.replicate 9 Cell.E

/-- player: X moves when the X-count equals the O-count, otherwise O. -/
def player (board : List Cell) : Cell :=
  if board.countP (fun v => decide (v = Cell.X)) =
     board.countP (fun v => decide (v = Cell.O))
  then Cell.X else Cell.O

/-- actions: the indices (0-8 on a 9-cell board) of the empty cells,
in increasing order, exactly as the Python list comprehension
enumerates them. -/
def actions (board : List Cell) : List Nat :=
  (List.range board.length).filter (fun i => decide (board.getD i Cell.E = Cell.E))

/-- resultFn: the successful branch of result: a copy of the board with the
mark of the mover written at the given index.  The search functions only ever
apply legal actions, for which result reduces to exactly this. -/
def resultFn (board : List Cell) (action : Nat) : List Cell :=
  board.set action (player board)

/-- Failure modes of result: the explicit ValueError raised on an occupied
cell, and the IndexError Python raises when the index is out of range. -/
inductive MoveError
  | invalidMove
  | indexError
deriving DecidableEq

/-- result: applying a move.  Python first evaluates board[action]
(raising IndexError when out of range), then raises ValueError when the
cell is occupied, and otherwise returns a fresh board with the mark set. -/
def result (board : List Cell) (action : Nat) : Except MoveError (List Cell) :=
  match board[action]? with
  | none => Except.error MoveError.indexError
  | some c =>
      if c = Cell.E then Except.ok (resultFn board action)
      else Except.error MoveError.invalidMove

/-- lineWin: the test the source performs on one win line:
board[a] != EMPTY and board[a] == board[b] == board[c]. -/
def lineWin (board : List Cell) (l : Nat × Nat × Nat) : Option Cell :=
  if board.getD l.1 Cell.E ≠ Cell.E ∧
     board.getD l.1 Cell.E = board.getD l.2.1 Cell.E ∧
     board.getD l.2.1 Cell.E = board.getD l.2.2 Cell.E
  then some (board.getD l.1 Cell.E) else none

/-- winner: the owner of the first complete line in WIN_LINES order,
if any. -/
def winner (board : List Cell) : Option Cell :=
  WIN_LINES.findSome? (lineWin board)

/-- terminal: somebody has won, or the board is full. -/
def terminal (board : List Cell) : Bool :=
  (winner board).isSome || board.all (fun v => decide (v ≠ Cell.E))

/-- utility: +1 when X has won, -1 when O has won, 0 otherwise. -/
def utility (board : List Cell) : Int :=
  match winner board with
  | some Cell.X => 1
  | some Cell.O => -1
  | _ => 0

/-- priority: the static cell priorities of the move orderer
(center 3, corners 2, edges 1), matching the dict in the source on the
nine cell indices occurring in actions. -/
def priority (i : Nat) : Nat :=
  if i = 4 then 3
  else if i = 0 ∨ i = 2 ∨ i = 6 ∨ i = 8 then 2
  else 1

/-- ordered_actions: the legal actions stably sorted by descending
priority, as the stable Python sorted with key -priority[i].  The priority
key only takes the values 3, 2, 1, so the stable descending sort is
exactly the concatenation of the three priority classes in descending
class order, each class keeping the underlying increasing index order of
actions. -/
def ordered_actions (board : List Cell) : List Nat :=
  ((actions board).filter fun i => decide (priority i = 3)) ++
    ((actions board).filter fun i => decide (priority i = 2)) ++
    (actions board).filter fun i => decide (priority i = 1)

/-- valFold: running maximum (or minimum) of child values over a list of
actions, the value bookkeeping common to the search loops. -/
def valFold (g : Nat → Int) (isMax : Bool) (l : List Nat) (v : Int) : Int :=
  l.foldl (fun w a => if isMax then max w (g a) else min w (g a)) v

/-- mmLoop: the body of the for-loop of max_value / min_value in
minimax_best_action: fold the running value and add the node count of every child. -/
def mmLoop (f : Nat → Int × Nat) (isMax : Bool) : List Nat → Int → Nat → Int × Nat
  | [], v, n => (v, n)
  | a :: rest, v, n =>
      mmLoop f isMax rest
        (if isMax then max v (f a).1 else min v (f a).1) (n + (f a).2)

/-- mmVal: the mutually recursive max_value / min_value pair of
minimax_best_action, expressed as one function with an isMax flag
(true for max_value).  The pair returned is (value, nodes visited);
the node counter is incremented once on entry, before the terminal
test, exactly as in the source. -/
def mmVal (o isMax : Bool) : Nat → List Cell → Int × Nat
  | 0, _ => (0, 0)
  | fuel + 1, s =>
      if terminal s then (utility s, 1)
      else
        mmLoop (fun a => mmVal o (!isMax) fuel (resultFn s a)) isMax
          (if o then ordered_actions s else actions s)
          (if isMax then -INF else INF) 1

/-- mmRootMax: the root loop of minimax_best_action when X (MAX) moves:
strict improvement updates the stored best action. -/
def mmRootMax (f : Nat → Int × Nat) :
    List Nat → Option Nat → Int → Nat → Option Nat × Int × Nat
  | [], bA, bV, n => (bA, bV, n)
  | a :: rest, bA, bV, n =>
      if bV < (f a).1 then mmRootMax f rest (some a) (f a).1 (n + (f a).2)
      else mmRootMax f rest bA bV (n + (f a).2)

/-- mmRootMin: the root loop of minimax_best_action when O (MIN) moves. -/
def mmRootMin (f : Nat → Int × Nat) :
    List Nat → Option Nat → Int → Nat → Option Nat × Int × Nat
  | [], bA, bV, n => (bA, bV, n)
  | a :: rest, bA, bV, n =>
      if (f a).1 < bV then mmRootMin f rest (some a) (f a).1 (n + (f a).2)
      else mmRootMin f rest bA bV (n + (f a).2)

/-- minimax_best_action: returns (best action, internal best value, node
count).  The Python function returns only (best_action, nodes); the middle
component is the internal best_value variable at the moment of return,
exposed so that the statements of the specification about the computed value can be
expressed. -/
def minimax_best_action (board : List Cell) (use_order : Bool) :
    Option Nat × Int × Nat :=
  if player board = Cell.X then
    mmRootMax (fun a => mmVal use_order false (board.length + 1) (resultFn board a))
      (if use_order then ordered_actions board else actions board) none (-INF) 0
  else
    mmRootMin (fun a => mmVal use_order true (board.length + 1) (resultFn board a))
      (if use_order then ordered_actions board else actions board) none INF 0

/-- abLoopMax: the for-loop of max_value in alphabeta_best_action:
raise the running value and alpha, and break as soon as beta <= alpha. -/
def abLoopMax (f : Nat → Int → Int × Nat) (beta : Int) :
    List Nat → Int → Int → Nat → Int × Nat
  | [], v, _, n => (v, n)
  | a :: rest, v, alpha, n =>
      let r := f a alpha
      let v2 := max v r.1
      let a2 := max alpha v2
      if beta ≤ a2 then (v2, n + r.2) else abLoopMax f beta rest v2 a2 (n + r.2)

/-- abLoopMin: the for-loop of min_value in alphabeta_best_action. -/
def abLoopMin (f : Nat → Int → Int × Nat) (alpha : Int) :
    List Nat → Int → Int → Nat → Int × Nat
  | [], v, _, n => (v, n)
  | a :: rest, v, beta, n =>
      let r := f a beta
      let v2 := min v r.1
      let b2 := min beta v2
      if b2 ≤ alpha then (v2, n + r.2) else abLoopMin f alpha rest v2 b2 (n + r.2)

/-- abVal: the mutually recursive max_value / min_value pair of
alphabeta_best_action as one function with an isMax flag; returns
(value, nodes visited), counting every entered node once before the
terminal test. -/
def abVal (o isMax : Bool) : Nat → List Cell → Int → Int → Int × Nat
  | 0, _, _, _ => (0, 0)
  | fuel + 1, s, alpha, beta =>
      if terminal s then (utility s, 1)
      else if isMax then
        abLoopMax (fun a al => abVal o false fuel (resultFn s a) al beta) beta
          (if o then ordered_actions s else actions s) (-INF) alpha 1
      else
        abLoopMin (fun a be => abVal o true fuel (resultFn s a) alpha be) alpha
          (if o then ordered_actions s else actions s) INF beta 1

/-- abRootMax: the root loop of alphabeta_best_action when X moves:
after each child, best action and value update on strict improvement and
alpha becomes max(alpha, best_value); beta stays +INF and the loop never
breaks. -/
def abRootMax (f : Nat → Int → Int × Nat) :
    List Nat → Option Nat → Int → Int → Nat → Option Nat × Int × Nat
  | [], bA, bV, _, n => (bA, bV, n)
  | a :: rest, bA, bV, alpha, n =>
      let r := f a alpha
      if bV < r.1 then abRootMax f rest (some a) r.1 (max alpha r.1) (n + r.2)
      else abRootMax f rest bA bV (max alpha bV) (n + r.2)

/-- abRootMin: the root loop of alphabeta_best_action when O moves. -/
def abRootMin (f : Nat → Int → Int × Nat) :
    List Nat → Option Nat → Int → Int → Nat → Option Nat × Int × Nat
  | [], bA, bV, _, n => (bA, bV, n)
  | a :: rest, bA, bV, beta, n =>
      let r := f a beta
      if r.1 < bV then abRootMin f rest (some a) r.1 (min beta r.1) (n + r.2)
      else abRootMin f rest bA bV (min beta bV) (n + r.2)

/-- alphabeta_best_action: returns (best action, internal best value, node
count); the middle component is the internal best_value variable, exposed
as for minimax_best_action. -/
def alphabeta_best_action (board : List Cell) (use_order : Bool) :
    Option Nat × Int × Nat :=
  if player board = Cell.X then
    abRootMax (fun a al => abVal use_order false (board.length + 1) (resultFn board a) al INF)
      (if use_order then ordered_actions board else actions board) none (-INF) (-INF) 0
  else
    abRootMin (fun a be => abVal use_order true (board.length + 1) (resultFn board a) (-INF) be)
      (if use_order then ordered_actions board else actions board) none INF INF 0

/-- gv: the specification-side game-theoretic value, written from the
wording of the spec: a terminal position is worth its score, and a non-terminal
position is worth the maximum (the Maximizer to move) or minimum (the
Minimizer to move) of the values of its successor positions, the two
actors strictly alternating.  This definition is deliberately independent
of move ordering and of the node instrumentation, so that the evaluators
can be compared against it. -/
def gv (isMax : Bool) : Nat → List Cell → Int
  | 0, _ => 0
  | fuel + 1, s =>
      if terminal s then utility s
      else
        valFold (fun a => gv (!isMax) fuel (resultFn s a)) isMax (actions s)
          (if isMax then -INF else INF)

/-- gameValue: the game-theoretic value of a board, the Maximizer moving
first exactly when the player of the position is X. -/
def gameValue (board : List Cell) : Int :=
  gv (decide (player board = Cell.X)) (board.length + 1) board

/-- countEmpty: the number of empty cells, the measure bounding the search
depth. -/
def countEmpty (board : List Cell) : Nat :=
  board.countP (fun v => decide (v = Cell.E))

/-- clampv: the value of x clamped into the search window [alpha, beta];
the standard device for stating the fail-soft correctness of alpha-beta
relative to minimax. -/
def clampv (alpha beta x : Int) : Int := min beta (max alpha x)

/-- drawBoard: a full drawn board (X O X / X O O / O X X). -/
def drawBoard : List Cell :=
  [Cell.X, Cell.O, Cell.X, Cell.X, Cell.O, Cell.O, Cell.O, Cell.X, Cell.X]

/-- wonBoard: X has won the top row while four cells are still empty. -/
def wonBoard : List Cell :=
  [Cell.X, Cell.X, Cell.X, Cell.O, Cell.O, Cell.E, Cell.E, Cell.E, Cell.E]

/-- bc4Board: X X O / O X O / _ _ _, X to move: a legal, non-terminal
position on which alpha-beta prunes nothing. -/
def bc4Board : List Cell :=
  [Cell.X, Cell.X, Cell.O, Cell.O, Cell.X, Cell.O, Cell.E, Cell.E, Cell.E]

/-- bc6Board: _ _ _ / X X O / O X O, X to move: a legal, non-terminal
position on which move ordering increases the alpha-beta node count. -/
def bc6Board : List Cell :=
  [Cell.E, Cell.E, Cell.E, Cell.X, Cell.X, Cell.O, Cell.O, Cell.X, Cell.O]

/-- midBoard: the mid-game benchmark board X O X / O X _ / _ _ O with
X to move. -/
def midBoard : List Cell :=
  [Cell.X, Cell.O, Cell.X, Cell.O, Cell.X, Cell.E, Cell.E, Cell.E, Cell.O]

/-! Basic facts about the game-rules layer. -/

theorem mem_actions {board : List Cell} {a : Nat} :
    a ∈ actions board ↔ a < board.length ∧ board.getD a Cell.E = Cell.E := by
  simp [actions, List.mem_filter, List.mem_range]

theorem player_ne_E (board : List Cell) : player board ≠ Cell.E := by
  unfold player
  split <;> simp

theorem utility_lb (board : List Cell) : -1 ≤ utility board := by
  unfold utility
  rcases winner board with _ | c
  · simp
  · cases c <;> simp

theorem utility_ub (board : List Cell) : utility board ≤ 1 := by
  unfold utility
  rcases winner board with _ | c
  · simp
  · cases c <;> simp

theorem exists_empty_of_not_terminal {board : List Cell}
    (h : terminal board = false) : Cell.E ∈ board := by
  unfold terminal at h
  rcases Bool.or_eq_false_iff.1 h with ⟨-, hall⟩
  by_contra hne
  have : board.all (fun v => decide (v ≠ Cell.E)) = true := by
    rw [List.all_eq_true]
    intro x hx
    simp only [decide_eq_true_eq]
    rintro rfl
    exact hne hx
  rw [this] at hall
  cases hall

theorem actions_ne_nil_of_not_terminal {board : List Cell}
    (h : terminal board = false) : actions board ≠ [] := by
  have hE := exists_empty_of_not_terminal h
  rcases List.mem_iff_getElem.1 hE with ⟨i, hi, hget⟩
  have hmem : i ∈ actions board := by
    rw [mem_actions]
    refine ⟨hi, ?_⟩
    rw [List.getD_eq_getElem?_getD, List.getElem?_eq_getElem hi, hget]
    rfl
  intro hnil
  rw [hnil] at hmem
  cases hmem

theorem countEmpty_pos_of_not_terminal {board : List Cell}
    (h : terminal board = false) : 0 < countEmpty board := by
  have hE := exists_empty_of_not_terminal h
  unfold countEmpty
  rw [List.countP_pos_iff]
  exact ⟨Cell.E, hE, by simp⟩

theorem countEmpty_le_length (board : List Cell) :
    countEmpty board ≤ board.length :=
  List.countP_le_length _

theorem getElem_eq_E_of_mem_actions {board : List Cell} {a : Nat}
    (h : a ∈ actions board) (ha : a < board.length) : board[a] = Cell.E := by
  rcases mem_actions.1 h with ⟨-, hE⟩
  rw [List.getD_eq_getElem?_getD, List.getElem?_eq_getElem ha] at hE
  exact hE

theorem countEmpty_resultFn {board : List Cell} {a : Nat}
    (h : a ∈ actions board) :
    countEmpty (resultFn board a) + 1 = countEmpty board := by
  rcases mem_actions.1 h with ⟨ha, -⟩
  have hE := getElem_eq_E_of_mem_actions h ha
  have hpos : 0 < board.countP (fun v => decide (v = Cell.E)) :=
    List.countP_pos_iff.2 ⟨Cell.E, by rw [← hE]; exact board.getElem_mem ha, by simp⟩
  have e1 : (decide (board[a] = Cell.E)) = true := by simp [hE]
  have e2 : (decide (player board = Cell.E)) = false := by simp [player_ne_E board]
  unfold countEmpty resultFn
  rw [List.countP_set (fun v => decide (v = Cell.E)) board a (player board) ha, e1, e2]
  simp only [if_true, Bool.false_eq_true, if_false]
  omega

/-! Permutation facts about move ordering. -/

theorem priority_cases (i : Nat) :
    priority i = 3 ∨ priority i = 2 ∨ priority i = 1 := by
  unfold priority
  split
  · left; rfl
  · split
    · right; left; rfl
    · right; right; rfl

theorem ordered_actions_perm (board : List Cell) :
    List.Perm (ordered_actions board) (actions board) := by
  unfold ordered_actions
  set l := actions board with hl
  have h3 : List.Perm (l.filter (fun i => decide (priority i = 3)) ++
      l.filter (fun i => !decide (priority i = 3))) l :=
    List.filter_append_perm _ l
  have h2 : List.Perm
      ((l.filter (fun i => !decide (priority i = 3))).filter (fun i => decide (priority i = 2)) ++
        (l.filter (fun i => !decide (priority i = 3))).filter (fun i => !decide (priority i = 2)))
      (l.filter (fun i => !decide (priority i = 3))) :=
    List.filter_append_perm _ _
  have e2 : (l.filter (fun i => !decide (priority i = 3))).filter
      (fun i => decide (priority i = 2)) = l.filter (fun i => decide (priority i = 2)) := by
    rw [List.filter_filter]
    apply List.filter_congr
    intro i hi
    rcases priority_cases i with h | h | h <;> simp [h]
  have e1 : (l.filter (fun i => !decide (priority i = 3))).filter
      (fun i => !decide (priority i = 2)) = l.filter (fun i => decide (priority i = 1)) := by
    rw [List.filter_filter]
    apply List.filter_congr
    intro i hi
    rcases priority_cases i with h | h | h <;> simp [h]
  rw [e2, e1] at h2
  rw [List.append_assoc]
  exact (List.Perm.append_left _ h2).trans h3

theorem it_perm (o : Bool) (board : List Cell) :
    List.Perm (if o then ordered_actions board else actions board) (actions board) := by
  cases o
  · simp
  · simpa using ordered_actions_perm board

/-! Persistence of a win under further moves. -/

theorem lineWin_resultFn {board : List Cell} {a : Nat} {l : Nat × Nat × Nat} {w : Cell}
    (h : lineWin board l = some w) (ha : a ∈ actions board) :
    lineWin (resultFn board a) l = some w := by
  rcases mem_actions.1 ha with ⟨-, hE⟩
  unfold lineWin at *
  split at h
  · rename_i hcond
    rcases hcond with ⟨h1, h12, h23⟩
    have k1 : l.1 ≠ a := by rintro rfl; exact h1 hE
    have k2 : l.2.1 ≠ a := by rintro rfl; rw [← h12] at hE; exact h1 hE
    have k3 : l.2.2 ≠ a := by
      rintro rfl; rw [← h23, ← h12] at hE; exact h1 hE
    have g : ∀ i, i ≠ a → (resultFn board a).getD i Cell.E = board.getD i Cell.E := by
      intro i hia
      unfold resultFn
      rw [List.getD_eq_getElem?_getD, List.getD_eq_getElem?_getD,
        List.getElem?_set_ne (fun he => hia he.symm)]
    rw [if_pos ?_, g l.1 k1]
    · exact h
    · rw [g l.1 k1, g l.2.1 k2, g l.2.2 k3]
      exact ⟨h1, h12, h23⟩
  · cases h

theorem winner_resultFn_isSome {board : List Cell} {a : Nat}
    (h : (winner board).isSome = true) (ha : a ∈ actions board) :
    (winner (resultFn board a)).isSome = true := by
  unfold winner at *
  rw [List.findSome?_isSome_iff] at h ⊢
  rcases h with ⟨l, hl, hw⟩
  rcases Option.isSome_iff_exists.1 hw with ⟨w, hsome⟩
  exact ⟨l, hl, by rw [lineWin_resultFn hsome ha]; rfl⟩

theorem terminal_resultFn {board : List Cell} {a : Nat}
    (h : terminal board = true) (ha : a ∈ actions board) :
    terminal (resultFn board a) = true := by
  unfold terminal at h ⊢
  rcases Bool.or_eq_true_iff.1 h with hw | hall
  · rw [winner_resultFn_isSome hw ha]
    rfl
  · exfalso
    rcases mem_actions.1 ha with ⟨hlt, hE⟩
    have := List.all_eq_true.1 hall (board[a]) (board.getElem_mem hlt)
    rw [getElem_eq_E_of_mem_actions ha hlt] at this
    simp at this

/-! Facts about valFold, the running max/min bookkeeping. -/

theorem valFold_cons (g : Nat → Int) (isMax : Bool) (a : Nat) (l : List Nat) (v : Int) :
    valFold g isMax (a :: l) v =
      valFold g isMax l (if isMax then max v (g a) else min v (g a)) := rfl

theorem valFold_true_ge (g : Nat → Int) (l : List Nat) :
    ∀ v : Int, v ≤ valFold g true l v := by
  induction l with
  | nil => intro v; exact le_refl v
  | cons a rest ih =>
      intro v
      rw [valFold_cons]
      simp only [if_true]
      exact le_trans (le_max_left v (g a)) (ih (max v (g a)))

theorem valFold_false_le (g : Nat → Int) (l : List Nat) :
    ∀ v : Int, valFold g false l v ≤ v := by
  induction l with
  | nil => intro v; exact le_refl v
  | cons a rest ih =>
      intro v
      rw [valFold_cons]
      simp only [Bool.false_eq_true, if_false]
      exact le_trans (ih (min v (g a))) (min_le_left v (g a))

theorem valFold_true_le {g : Nat → Int} {l : List Nat} {c : Int}
    (hg : ∀ a ∈ l, g a ≤ c) : ∀ v : Int, v ≤ c → valFold g true l v ≤ c := by
  induction l with
  | nil => intro v hv; exact hv
  | cons a rest ih =>
      intro v hv
      rw [valFold_cons]
      simp only [if_true]
      exact ih (fun b hb => hg b (List.mem_cons_of_mem a hb))
        (max v (g a)) (max_le hv (hg a (List.mem_cons_self a rest)))

theorem valFold_false_ge {g : Nat → Int} {l : List Nat} {c : Int}
    (hg : ∀ a ∈ l, c ≤ g a) : ∀ v : Int, c ≤ v → c ≤ valFold g false l v := by
  induction l with
  | nil => intro v hv; exact hv
  | cons a rest ih =>
      intro v hv
      rw [valFold_cons]
      simp only [Bool.false_eq_true, if_false]
      exact ih (fun b hb => hg b (List.mem_cons_of_mem a hb))
        (min v (g a)) (le_min hv (hg a (List.mem_cons_self a rest)))

theorem valFold_true_ge_mem {g : Nat → Int} {l : List Nat} {a : Nat}
    (ha : a ∈ l) : ∀ v : Int, g a ≤ valFold g true l v := by
  induction l with
  | nil => cases ha
  | cons b rest ih =>
      intro v
      rw [valFold_cons]
      simp only [if_true]
      rcases List.mem_cons.1 ha with rfl | hmem
      · exact le_trans (le_max_right v (g a)) (valFold_true_ge g rest _)
      · exact ih hmem _

theorem valFold_false_le_mem {g : Nat → Int} {l : List Nat} {a : Nat}
    (ha : a ∈ l) : ∀ v : Int, valFold g false l v ≤ g a := by
  induction l with
  | nil => cases ha
  | cons b rest ih =>
      intro v
      rw [valFold_cons]
      simp only [Bool.false_eq_true, if_false]
      rcases List.mem_cons.1 ha with rfl | hmem
      · exact le_trans (valFold_false_le g rest _) (min_le_right v (g a))
      · exact ih hmem _

theorem valFold_true_lb {g : Nat → Int} {l : List Nat} {c : Int}
    (hg : ∀ a ∈ l, c ≤ g a) (hne : l ≠ []) (v : Int) : c ≤ valFold g true l v := by
  rcases l with _ | ⟨a, rest⟩
  · exact absurd rfl hne
  · exact le_trans (hg a (List.mem_cons_self a rest))
      (valFold_true_ge_mem (List.mem_cons_self a rest) v)

theorem valFold_false_ub {g : Nat → Int} {l : List Nat} {c : Int}
    (hg : ∀ a ∈ l, g a ≤ c) (hne : l ≠ []) (v : Int) : valFold g false l v ≤ c := by
  rcases l with _ | ⟨a, rest⟩
  · exact absurd rfl hne
  · exact le_trans (valFold_false_le_mem (List.mem_cons_self a rest) v)
      (hg a (List.mem_cons_self a rest))

theorem valFold_congr {g1 g2 : Nat → Int} {isMax : Bool} {l : List Nat}
    (hg : ∀ a ∈ l, g1 a = g2 a) : ∀ v : Int, valFold g1 isMax l v = valFold g2 isMax l v := by
  induction l with
  | nil => intro v; rfl
  | cons a rest ih =>
      intro v
      rw [valFold_cons, valFold_cons, hg a (List.mem_cons_self a rest)]
      exact ih (fun b hb => hg b (List.mem_cons_of_mem a hb)) _

theorem valFold_perm {g : Nat → Int} {isMax : Bool} {l1 l2 : List Nat}
    (h : List.Perm l1 l2) (v : Int) : valFold g isMax l1 v = valFold g isMax l2 v := by
  unfold valFold
  refine @List.Perm.foldl_eq _ _ _ _ _ ⟨?_⟩ h v
  intro w a b
  cases isMax
  · simp only [Bool.false_eq_true, if_false]
    exact inf_right_comm w (g a) (g b)
  · simp only [if_true]
    exact sup_right_comm w (g a) (g b)

theorem valFold_true_init {g : Nat → Int} {l : List Nat} :
    ∀ x y : Int, x ≤ y → valFold g true l y = max y (valFold g true l x) := by
  induction l with
  | nil => intro x y hxy; simp [valFold, max_eq_left hxy]
  | cons a rest ih =>
      intro x y hxy
      rw [valFold_cons, valFold_cons]
      simp only [if_true]
      rw [ih (max x (g a)) (max y (g a)) (max_le_max_right (g a) hxy)]
      have hga : g a ≤ valFold g true rest (max x (g a)) :=
        le_trans (le_max_right x (g a)) (valFold_true_ge g rest _)
      rw [max_comm y (g a), max_assoc]
      exact max_eq_right (le_trans hga (le_max_right y _))

theorem valFold_false_init {g : Nat → Int} {l : List Nat} :
    ∀ x y : Int, y ≤ x → valFold g false l y = min y (valFold g false l x) := by
  induction l with
  | nil => intro x y hxy; simp [valFold, min_eq_left hxy]
  | cons a rest ih =>
      intro x y hxy
      rw [valFold_cons, valFold_cons]
      simp only [Bool.false_eq_true, if_false]
      rw [ih (min x (g a)) (min y (g a)) (min_le_min_right (g a) hxy)]
      have hga : valFold g false rest (min x (g a)) ≤ g a :=
        le_trans (valFold_false_le g rest _) (min_le_right x (g a))
      rw [min_comm y (g a), min_assoc]
      exact min_eq_right (le_trans (min_le_right y _) hga)

/-! Projections of the minimax loops. -/

theorem mmLoop_fst (f : Nat → Int × Nat) (isMax : Bool) :
    ∀ (l : List Nat) (v : Int) (n : Nat),
      (mmLoop f isMax l v n).1 = valFold (fun a => (f a).1) isMax l v := by
  intro l
  induction l with
  | nil => intro v n; rfl
  | cons a rest ih =>
      intro v n
      rw [valFold_cons]
      exact ih _ _

theorem mmLoop_snd (f : Nat → Int × Nat) (isMax : Bool) :
    ∀ (l : List Nat) (v : Int) (n : Nat),
      (mmLoop f isMax l v n).2 = n + (l.map (fun a => (f a).2)).sum := by
  intro l
  induction l with
  | nil => intro v n; simp [mmLoop]
  | cons a rest ih =>
      intro v n
      show (mmLoop f isMax rest _ (n + (f a).2)).2 = _
      rw [ih]
      simp [List.sum_cons]
      omega

theorem mmRootMax_val (f : Nat → Int × Nat) :
    ∀ (l : List Nat) (bA : Option Nat) (bV : Int) (n : Nat),
      (mmRootMax f l bA bV n).2.1 = valFold (fun a => (f a).1) true l bV := by
  intro l
  induction l with
  | nil => intro bA bV n; rfl
  | cons a rest ih =>
      intro bA bV n
      rw [valFold_cons]
      simp only [if_true]
      show (if bV < (f a).1 then mmRootMax f rest (some a) (f a).1 (n + (f a).2)
        else mmRootMax f rest bA bV (n + (f a).2)).2.1 = _
      rcases lt_or_ge bV ((f a).1) with h | h
      · rw [if_pos h, ih, max_eq_right (le_of_lt h)]
      · rw [if_neg (not_lt.2 h), ih, max_eq_left h]

theorem mmRootMin_val (f : Nat → Int × Nat) :
    ∀ (l : List Nat) (bA : Option Nat) (bV : Int) (n : Nat),
      (mmRootMin f l bA bV n).2.1 = valFold (fun a => (f a).1) false l bV := by
  intro l
  induction l with
  | nil => intro bA bV n; rfl
  | cons a rest ih =>
      intro bA bV n
      rw [valFold_cons]
      simp only [Bool.false_eq_true, if_false]
      show (if (f a).1 < bV then mmRootMin f rest (some a) (f a).1 (n + (f a).2)
        else mmRootMin f rest bA bV (n + (f a).2)).2.1 = _
      rcases lt_or_ge ((f a).1) bV with h | h
      · rw [if_pos h, ih, min_eq_right (le_of_lt h)]
      · rw [if_neg (not_lt.2 h), ih, min_eq_left h]

theorem mmRootMax_cnt (f : Nat → Int × Nat) :
    ∀ (l : List Nat) (bA : Option Nat) (bV : Int) (n : Nat),
      (mmRootMax f l bA bV n).2.2 = n + (l.map (fun a => (f a).2)).sum := by
  intro l
  induction l with
  | nil => intro bA bV n; simp [mmRootMax]
  | cons a rest ih =>
      intro bA bV n
      show (if bV < (f a).1 then mmRootMax f rest (some a) (f a).1 (n + (f a).2)
        else mmRootMax f rest bA bV (n + (f a).2)).2.2 = _
      rcases lt_or_ge bV ((f a).1) with h | h
      · rw [if_pos h, ih]
        simp [List.sum_cons]
        omega
      · rw [if_neg (not_lt.2 h), ih]
        simp [List.sum_cons]
        omega

theorem mmRootMin_cnt (f : Nat → Int × Nat) :
    ∀ (l : List Nat) (bA : Option Nat) (bV : Int) (n : Nat),
      (mmRootMin f l bA bV n).2.2 = n + (l.map (fun a => (f a).2)).sum := by
  intro l
  induction l with
  | nil => intro bA bV n; simp [mmRootMin]
  | cons a rest ih =>
      intro bA bV n
      show (if (f a).1 < bV then mmRootMin f rest (some a) (f a).1 (n + (f a).2)
        else mmRootMin f rest bA bV (n + (f a).2)).2.2 = _
      rcases lt_or_ge ((f a).1) bV with h | h
      · rw [if_pos h, ih]
        simp [List.sum_cons]
        omega
      · rw [if_neg (not_lt.2 h), ih]
        simp [List.sum_cons]
        omega

/-! Unfolding equations and bounds for the evaluators. -/

theorem mmVal_succ (o isMax : Bool) (fuel : Nat) (s : List Cell) :
    mmVal o isMax (fuel + 1) s =
      if terminal s then (utility s, 1)
      else
        mmLoop (fun a => mmVal o (!isMax) fuel (resultFn s a)) isMax
          (if o then ordered_actions s else actions s)
          (if isMax then -INF else INF) 1 := rfl

theorem abVal_succ (o isMax : Bool) (fuel : Nat) (s : List Cell) (al be : Int) :
    abVal o isMax (fuel + 1) s al be =
      if terminal s then (utility s, 1)
      else if isMax then
        abLoopMax (fun a al2 => abVal o false fuel (resultFn s a) al2 be) be
          (if o then ordered_actions s else actions s) (-INF) al 1
      else
        abLoopMin (fun a be2 => abVal o true fuel (resultFn s a) al be2) al
          (if o then ordered_actions s else actions s) INF be 1 := rfl

theorem abLoopMax_cons (fc : Nat → Int → Int × Nat) (beta : Int) (a : Nat)
    (rest : List Nat) (v al : Int) (n : Nat) :
    abLoopMax fc beta (a :: rest) v al n =
      if beta ≤ max al (max v (fc a al).1)
      then (max v (fc a al).1, n + (fc a al).2)
      else abLoopMax fc beta rest (max v (fc a al).1)
        (max al (max v (fc a al).1)) (n + (fc a al).2) := rfl

theorem abLoopMin_cons (fc : Nat → Int → Int × Nat) (alpha : Int) (a : Nat)
    (rest : List Nat) (v be : Int) (n : Nat) :
    abLoopMin fc alpha (a :: rest) v be n =
      if min be (min v (fc a be).1) ≤ alpha
      then (min v (fc a be).1, n + (fc a be).2)
      else abLoopMin fc alpha rest (min v (fc a be).1)
        (min be (min v (fc a be).1)) (n + (fc a be).2) := rfl

theorem it_ne_nil {o : Bool} {s : List Cell} (h : terminal s = false) :
    (if o then ordered_actions s else actions s) ≠ [] := by
  have ha := actions_ne_nil_of_not_terminal h
  have hp := it_perm o s
  intro hnil
  rw [hnil] at hp
  exact ha (List.Perm.eq_nil hp.symm)

theorem neg_one_le_INF : (-1 : Int) ≤ INF := by unfold INF; norm_num

theorem one_lt_INF : (1 : Int) < INF := by unfold INF; norm_num

theorem neg_INF_le_neg_one : -INF ≤ (-1 : Int) := by unfold INF; norm_num

theorem mmVal_fst_lb :
    ∀ (fuel : Nat) (o isMax : Bool) (s : List Cell), -1 ≤ (mmVal o isMax fuel s).1 := by
  intro fuel
  induction fuel with
  | zero => intro o isMax s; norm_num [mmVal]
  | succ fuel ih =>
      intro o isMax s
      rw [mmVal_succ]
      by_cases ht : terminal s = true
      · rw [if_pos ht]
        exact utility_lb s
      · rw [if_neg ht, mmLoop_fst]
        cases isMax
        · simp only [Bool.false_eq_true, if_false]
          exact valFold_false_ge (fun a ha2 => ih o true (resultFn s a)) INF neg_one_le_INF
        · simp only [if_true]
          exact valFold_true_lb (fun a ha2 => ih o false (resultFn s a))
            (it_ne_nil (Bool.not_eq_true _ ▸ ht)) (-INF)

theorem mmVal_fst_ub :
    ∀ (fuel : Nat) (o isMax : Bool) (s : List Cell), (mmVal o isMax fuel s).1 ≤ 1 := by
  intro fuel
  induction fuel with
  | zero => intro o isMax s; norm_num [mmVal]
  | succ fuel ih =>
      intro o isMax s
      rw [mmVal_succ]
      by_cases ht : terminal s = true
      · rw [if_pos ht]
        exact utility_ub s
      · rw [if_neg ht, mmLoop_fst]
        cases isMax
        · simp only [Bool.false_eq_true, if_false]
          exact valFold_false_ub (fun a ha2 => ih o true (resultFn s a))
            (it_ne_nil (Bool.not_eq_true _ ▸ ht)) INF
        · simp only [if_true]
          exact valFold_true_le (fun a ha2 => ih o false (resultFn s a)) (-INF)
            (le_trans neg_INF_le_neg_one (by norm_num))

theorem abLoopMax_fst_ge (fc : Nat → Int → Int × Nat) (beta : Int) :
    ∀ (l : List Nat) (v al : Int) (n : Nat), v ≤ (abLoopMax fc beta l v al n).1 := by
  intro l
  induction l with
  | nil => intro v al n; exact le_refl v
  | cons a rest ih =>
      intro v al n
      rw [abLoopMax_cons]
      split
      · exact le_max_left v _
      · exact le_trans (le_max_left v _) (ih _ _ _)

theorem abLoopMin_fst_le (fc : Nat → Int → Int × Nat) (alpha : Int) :
    ∀ (l : List Nat) (v be : Int) (n : Nat), (abLoopMin fc alpha l v be n).1 ≤ v := by
  intro l
  induction l with
  | nil => intro v be n; exact le_refl v
  | cons a rest ih =>
      intro v be n
      rw [abLoopMin_cons]
      split
      · exact min_le_left v _
      · exact le_trans (ih _ _ _) (min_le_left v _)

theorem abLoopMax_fst_ub {fc : Nat → Int → Int × Nat} {beta c : Int}
    (hf : ∀ a al, (fc a al).1 ≤ c) :
    ∀ (l : List Nat) (v al : Int) (n : Nat), v ≤ c → (abLoopMax fc beta l v al n).1 ≤ c := by
  intro l
  induction l with
  | nil => intro v al n hv; exact hv
  | cons a rest ih =>
      intro v al n hv
      rw [abLoopMax_cons]
      split
      · exact max_le hv (hf a al)
      · exact ih _ _ _ (max_le hv (hf a al))

theorem abLoopMin_fst_lb {fc : Nat → Int → Int × Nat} {alpha c : Int}
    (hf : ∀ a be, c ≤ (fc a be).1) :
    ∀ (l : List Nat) (v be : Int) (n : Nat), c ≤ v → c ≤ (abLoopMin fc alpha l v be n).1 := by
  intro l
  induction l with
  | nil => intro v be n hv; exact hv
  | cons a rest ih =>
      intro v be n hv
      rw [abLoopMin_cons]
      split
      · exact le_min hv (hf a be)
      · exact ih _ _ _ (le_min hv (hf a be))

theorem abLoopMax_fst_lb {fc : Nat → Int → Int × Nat} {beta c : Int}
    (hf : ∀ a al, c ≤ (fc a al).1) :
    ∀ (l : List Nat) (v al : Int) (n : Nat), l ≠ [] ∨ c ≤ v →
      c ≤ (abLoopMax fc beta l v al n).1 := by
  intro l
  induction l with
  | nil =>
      intro v al n h
      rcases h with h | h
      · exact absurd rfl h
      · exact h
  | cons a rest ih =>
      intro v al n h
      rw [abLoopMax_cons]
      split
      · exact le_trans (hf a al) (le_max_right v _)
      · exact ih _ _ _ (Or.inr (le_trans (hf a al) (le_max_right v _)))

theorem abLoopMin_fst_ub {fc : Nat → Int → Int × Nat} {alpha c : Int}
    (hf : ∀ a be, (fc a be).1 ≤ c) :
    ∀ (l : List Nat) (v be : Int) (n : Nat), l ≠ [] ∨ v ≤ c →
      (abLoopMin fc alpha l v be n).1 ≤ c := by
  intro l
  induction l with
  | nil =>
      intro v be n h
      rcases h with h | h
      · exact absurd rfl h
      · exact h
  | cons a rest ih =>
      intro v be n h
      rw [abLoopMin_cons]
      split
      · exact le_trans (min_le_right v _) (hf a be)
      · exact ih _ _ _ (Or.inr (le_trans (min_le_right v _) (hf a be)))

theorem abVal_fst_lb :
    ∀ (fuel : Nat) (o isMax : Bool) (s : List Cell) (al be : Int),
      -1 ≤ (abVal o isMax fuel s al be).1 := by
  intro fuel
  induction fuel with
  | zero => intro o isMax s al be; norm_num [abVal]
  | succ fuel ih =>
      intro o isMax s al be
      rw [abVal_succ]
      by_cases ht : terminal s = true
      · rw [if_pos ht]
        exact utility_lb s
      · rw [if_neg ht]
        cases isMax
        · simp only [Bool.false_eq_true, if_false]
          exact abLoopMin_fst_lb (fun a be2 => ih o true (resultFn s a) al be2) _ INF be 1
            neg_one_le_INF
        · simp only [if_true]
          exact abLoopMax_fst_lb (fun a al2 => ih o false (resultFn s a) al2 be) _ (-INF) al 1
            (Or.inl (it_ne_nil (Bool.not_eq_true _ ▸ ht)))

theorem abVal_fst_ub :
    ∀ (fuel : Nat) (o isMax : Bool) (s : List Cell) (al be : Int),
      (abVal o isMax fuel s al be).1 ≤ 1 := by
  intro fuel
  induction fuel with
  | zero => intro o isMax s al be; norm_num [abVal]
  | succ fuel ih =>
      intro o isMax s al be
      rw [abVal_succ]
      by_cases ht : terminal s = true
      · rw [if_pos ht]
        exact utility_ub s
      · rw [if_neg ht]
        cases isMax
        · simp only [Bool.false_eq_true, if_false]
          exact abLoopMin_fst_ub (fun a be2 => ih o true (resultFn s a) al be2) _ INF be 1
            (Or.inl (it_ne_nil (Bool.not_eq_true _ ▸ ht)))
        · simp only [if_true]
          exact abLoopMax_fst_ub (fun a al2 => ih o false (resultFn s a) al2 be) _ (-INF) al 1
            (le_trans neg_INF_le_neg_one (by norm_num))

/-! The fail-soft correctness of alpha-beta relative to minimax, expressed
through window clamping: inside any window (alpha, beta), the alpha-beta
value and the minimax value clamp to the same point. -/

theorem abLoopMax_clamp {tc : Nat → Int} {fc : Nat → Int → Int × Nat} {be : Int}
    (Hchild : ∀ a al2, -INF ≤ al2 → al2 < be →
      clampv al2 be (tc a) = clampv al2 be (fc a al2).1) :
    ∀ (l : List Nat) (v al : Int) (n : Nat), -INF ≤ al → v ≤ al → al < be →
      clampv al be (abLoopMax fc be l v al n).1 = clampv al be (valFold tc true l v) := by
  intro l
  induction l with
  | nil => intro v al n hinf hv hab; rfl
  | cons a rest ih =>
      intro v al n hinf hv hab
      rw [abLoopMax_cons, valFold_cons]
      simp only [if_true]
      have h1 := Hchild a al hinf hab
      unfold clampv at h1
      have hFz := valFold_true_ge tc rest (min (max v (fc a al).1) (max v (tc a)))
      have e1 := @valFold_true_init tc rest
        (min (max v (fc a al).1) (max v (tc a))) (max v (fc a al).1) (min_le_left _ _)
      have e2 := @valFold_true_init tc rest
        (min (max v (fc a al).1) (max v (tc a))) (max v (tc a)) (min_le_right _ _)
      by_cases hbr : be ≤ max al (max v (fc a al).1)
      · rw [if_pos hbr, e2]
        unfold clampv
        omega
      · rw [if_neg hbr]
        have hIH := ih (max v (fc a al).1) (max al (max v (fc a al).1))
          (n + (fc a al).2) (le_trans hinf (le_max_left _ _)) (le_max_right _ _) (by omega)
        rw [e1] at hIH
        rw [e2]
        have hr := abLoopMax_fst_ge fc be rest (max v (fc a al).1)
          (max al (max v (fc a al).1)) (n + (fc a al).2)
        unfold clampv at hIH ⊢
        omega

theorem abLoopMin_clamp {tc : Nat → Int} {fc : Nat → Int → Int × Nat} {al : Int}
    (Hchild : ∀ a be2, be2 ≤ INF → al < be2 →
      clampv al be2 (tc a) = clampv al be2 (fc a be2).1) :
    ∀ (l : List Nat) (v be : Int) (n : Nat), be ≤ INF → be ≤ v → al < be →
      clampv al be (abLoopMin fc al l v be n).1 = clampv al be (valFold tc false l v) := by
  intro l
  induction l with
  | nil => intro v be n hinf hv hab; rfl
  | cons a rest ih =>
      intro v be n hinf hv hab
      rw [abLoopMin_cons, valFold_cons]
      simp only [Bool.false_eq_true, if_false]
      have h1 := Hchild a be hinf hab
      unfold clampv at h1
      have hFz := valFold_false_le tc rest (max (min v (fc a be).1) (min v (tc a)))
      have e1 := @valFold_false_init tc rest
        (max (min v (fc a be).1) (min v (tc a))) (min v (fc a be).1) (le_max_left _ _)
      have e2 := @valFold_false_init tc rest
        (max (min v (fc a be).1) (min v (tc a))) (min v (tc a)) (le_max_right _ _)
      by_cases hbr : min be (min v (fc a be).1) ≤ al
      · rw [if_pos hbr, e2]
        unfold clampv
        omega
      · rw [if_neg hbr]
        have hIH := ih (min v (fc a be).1) (min be (min v (fc a be).1))
          (n + (fc a be).2) (le_trans (min_le_left _ _) hinf) (min_le_right _ _) (by omega)
        rw [e1] at hIH
        rw [e2]
        have hr := abLoopMin_fst_le fc al rest (min v (fc a be).1)
          (min be (min v (fc a be).1)) (n + (fc a be).2)
        unfold clampv at hIH ⊢
        omega

theorem mm_ab_clamp :
    ∀ (fuel : Nat) (o isMax : Bool) (s : List Cell) (al be : Int),
      -INF ≤ al → be ≤ INF → al < be →
      clampv al be (mmVal o isMax fuel s).1 =
        clampv al be (abVal o isMax fuel s al be).1 := by
  intro fuel
  induction fuel with
  | zero => intro o isMax s al be h1 h2 hab; rfl
  | succ fuel ih =>
      intro o isMax s al be h1 h2 hab
      rw [mmVal_succ, abVal_succ]
      by_cases ht : terminal s = true
      · rw [if_pos ht, if_pos ht]
      · rw [if_neg ht, if_neg ht, mmLoop_fst]
        cases isMax
        · simp only [Bool.false_eq_true, if_false]
          exact (abLoopMin_clamp
            (fun a be2 hb2 hab2 => ih o true (resultFn s a) al be2 h1 hb2 hab2)
            _ INF be 1 h2 h2 hab).symm
        · simp only [if_true]
          exact (abLoopMax_clamp
            (fun a al2 ha2 hab2 => ih o false (resultFn s a) al2 be ha2 h2 hab2)
            _ (-INF) al 1 h1 h1 hab).symm

/-! Value agreement at the root. -/

theorem abRootMax_cons (f : Nat → Int → Int × Nat) (a : Nat) (rest : List Nat)
    (bA : Option Nat) (bV al : Int) (n : Nat) :
    abRootMax f (a :: rest) bA bV al n =
      if bV < (f a al).1
      then abRootMax f rest (some a) (f a al).1 (max al (f a al).1) (n + (f a al).2)
      else abRootMax f rest bA bV (max al bV) (n + (f a al).2) := rfl

theorem abRootMin_cons (f : Nat → Int → Int × Nat) (a : Nat) (rest : List Nat)
    (bA : Option Nat) (bV be : Int) (n : Nat) :
    abRootMin f (a :: rest) bA bV be n =
      if (f a be).1 < bV
      then abRootMin f rest (some a) (f a be).1 (min be (f a be).1) (n + (f a be).2)
      else abRootMin f rest bA bV (min be bV) (n + (f a be).2) := rfl

theorem abRootMax_val {tc : Nat → Int} {fc : Nat → Int → Int × Nat}
    (Hchild : ∀ a al2, -INF ≤ al2 → al2 < INF →
      clampv al2 INF (tc a) = clampv al2 INF (fc a al2).1)
    (Htub : ∀ a, tc a ≤ 1) (Hfub : ∀ a al2, (fc a al2).1 ≤ 1) :
    ∀ (l : List Nat) (bA : Option Nat) (bV : Int) (n : Nat), -INF ≤ bV → bV ≤ 1 →
      (abRootMax fc l bA bV bV n).2.1 = valFold tc true l bV := by
  intro l
  induction l with
  | nil => intro bA bV n hlb hub; rfl
  | cons a rest ih =>
      intro bA bV n hlb hub
      rw [abRootMax_cons, valFold_cons]
      simp only [if_true]
      have h1 := Hchild a bV hlb (lt_of_le_of_lt hub one_lt_INF)
      unfold clampv at h1
      have htc := Htub a
      have hcv := Hfub a bV
      have hkey : max bV (tc a) = max bV (fc a bV).1 := by
        have := one_lt_INF
        omega
      rw [hkey]
      by_cases hup : bV < (fc a bV).1
      · rw [if_pos hup]
        have hmax : max bV (fc a bV).1 = (fc a bV).1 := max_eq_right (le_of_lt hup)
        rw [hmax]
        exact ih (some a) (fc a bV).1 (n + (fc a bV).2)
          (le_trans hlb (le_of_lt hup)) hcv
      · rw [if_neg hup]
        have hmax : max bV (fc a bV).1 = bV := max_eq_left (not_lt.1 hup)
        rw [hmax, max_self]
        exact ih bA bV (n + (fc a bV).2) hlb hub

theorem abRootMin_val {tc : Nat → Int} {fc : Nat → Int → Int × Nat}
    (Hchild : ∀ a be2, be2 ≤ INF → -INF < be2 →
      clampv (-INF) be2 (tc a) = clampv (-INF) be2 (fc a be2).1)
    (Htlb : ∀ a, -1 ≤ tc a) (Hflb : ∀ a be2, -1 ≤ (fc a be2).1) :
    ∀ (l : List Nat) (bA : Option Nat) (bV : Int) (n : Nat), bV ≤ INF → -1 ≤ bV →
      (abRootMin fc l bA bV bV n).2.1 = valFold tc false l bV := by
  intro l
  induction l with
  | nil => intro bA bV n hub hlb; rfl
  | cons a rest ih =>
      intro bA bV n hub hlb
      rw [abRootMin_cons, valFold_cons]
      simp only [Bool.false_eq_true, if_false]
      have h1 := Hchild a bV hub (lt_of_lt_of_le (by unfold INF; norm_num) hlb)
      unfold clampv at h1
      have htc := Htlb a
      have hcv := Hflb a bV
      have hkey : min bV (tc a) = min bV (fc a bV).1 := by
        have := neg_INF_le_neg_one
        omega
      rw [hkey]
      by_cases hup : (fc a bV).1 < bV
      · rw [if_pos hup]
        have hmin : min bV (fc a bV).1 = (fc a bV).1 := min_eq_right (le_of_lt hup)
        rw [hmin]
        exact ih (some a) (fc a bV).1 (n + (fc a bV).2)
          (le_trans (le_of_lt hup) hub) hcv
      · rw [if_neg hup]
        have hmin : min bV (fc a bV).1 = bV := min_eq_left (not_lt.1 hup)
        rw [hmin, min_self]
        exact ih bA bV (n + (fc a bV).2) hub hlb

theorem mm_ab_value (board : List Cell) (o : Bool) :
    (minimax_best_action board o).2.1 = (alphabeta_best_action board o).2.1 := by
  unfold minimax_best_action alphabeta_best_action
  by_cases hp : player board = Cell.X
  · rw [if_pos hp, if_pos hp, mmRootMax_val]
    exact (abRootMax_val
      (fun a al2 h1 h2 =>
        mm_ab_clamp (board.length + 1) o false (resultFn board a) al2 INF h1 (le_refl INF) h2)
      (fun a => mmVal_fst_ub (board.length + 1) o false (resultFn board a))
      (fun a al2 => abVal_fst_ub (board.length + 1) o false (resultFn board a) al2 INF)
      _ none (-INF) 0 (le_refl (-INF)) (le_trans neg_INF_le_neg_one (by norm_num))).symm
  · rw [if_neg hp, if_neg hp, mmRootMin_val]
    exact (abRootMin_val
      (fun a be2 h1 h2 =>
        mm_ab_clamp (board.length + 1) o true (resultFn board a) (-INF) be2 (le_refl (-INF)) h1 h2)
      (fun a => mmVal_fst_lb (board.length + 1) o true (resultFn board a))
      (fun a be2 => abVal_fst_lb (board.length + 1) o true (resultFn board a) (-INF) be2)
      _ none INF 0 (le_refl INF) neg_one_le_INF).symm

/-! Move ordering changes neither minimax values nor minimax node counts. -/

theorem map_congr_mem {g1 g2 : Nat → Nat} :
    ∀ (l : List Nat), (∀ a ∈ l, g1 a = g2 a) → l.map g1 = l.map g2 := by
  intro l
  induction l with
  | nil => intro hg; rfl
  | cons a rest ih =>
      intro hg
      rw [List.map_cons, List.map_cons, hg a (List.mem_cons_self a rest),
        ih (fun b hb => hg b (List.mem_cons_of_mem a hb))]

theorem sum_map_congr_perm {g1 g2 : Nat → Nat} {l1 l2 : List Nat}
    (hp : List.Perm l1 l2) (hg : ∀ a ∈ l1, g1 a = g2 a) :
    (l1.map g1).sum = (l2.map g2).sum := by
  rw [map_congr_mem l1 hg]
  exact List.Perm.sum_eq (hp.map g2)

theorem mm_val_order :
    ∀ (fuel : Nat) (isMax : Bool) (s : List Cell),
      (mmVal true isMax fuel s).1 = (mmVal false isMax fuel s).1 := by
  intro fuel
  induction fuel with
  | zero => intro isMax s; rfl
  | succ fuel ih =>
      intro isMax s
      rw [mmVal_succ, mmVal_succ]
      by_cases ht : terminal s = true
      · rw [if_pos ht, if_pos ht]
      · rw [if_neg ht, if_neg ht, mmLoop_fst, mmLoop_fst]
        simp only [if_true, Bool.false_eq_true, if_false]
        exact (valFold_congr (fun a ha => ih (!isMax) (resultFn s a)) _).trans
          (valFold_perm (ordered_actions_perm s) _)

theorem mm_cnt_order :
    ∀ (fuel : Nat) (isMax : Bool) (s : List Cell),
      (mmVal true isMax fuel s).2 = (mmVal false isMax fuel s).2 := by
  intro fuel
  induction fuel with
  | zero => intro isMax s; rfl
  | succ fuel ih =>
      intro isMax s
      rw [mmVal_succ, mmVal_succ]
      by_cases ht : terminal s = true
      · rw [if_pos ht, if_pos ht]
      · rw [if_neg ht, if_neg ht, mmLoop_snd, mmLoop_snd]
        simp only [if_true, Bool.false_eq_true, if_false]
        rw [sum_map_congr_perm (ordered_actions_perm s)
          (fun a ha => ih (!isMax) (resultFn s a))]

theorem minimax_value_order (board : List Cell) :
    (minimax_best_action board true).2.1 = (minimax_best_action board false).2.1 := by
  unfold minimax_best_action
  by_cases hp : player board = Cell.X
  · rw [if_pos hp, if_pos hp, mmRootMax_val, mmRootMax_val]
    simp only [if_true, Bool.false_eq_true, if_false]
    exact (valFold_congr (fun a ha => mm_val_order (board.length + 1) false (resultFn board a)) _).trans
      (valFold_perm (ordered_actions_perm board) _)
  · rw [if_neg hp, if_neg hp, mmRootMin_val, mmRootMin_val]
    simp only [if_true, Bool.false_eq_true, if_false]
    exact (valFold_congr (fun a ha => mm_val_order (board.length + 1) true (resultFn board a)) _).trans
      (valFold_perm (ordered_actions_perm board) _)

theorem minimax_cnt_order (board : List Cell) :
    (minimax_best_action board true).2.2 = (minimax_best_action board false).2.2 := by
  unfold minimax_best_action
  by_cases hp : player board = Cell.X
  · rw [if_pos hp, if_pos hp, mmRootMax_cnt, mmRootMax_cnt]
    simp only [if_true, Bool.false_eq_true, if_false]
    rw [sum_map_congr_perm (ordered_actions_perm board)
      (fun a ha => mm_cnt_order (board.length + 1) false (resultFn board a))]
  · rw [if_neg hp, if_neg hp, mmRootMin_cnt, mmRootMin_cnt]
    simp only [if_true, Bool.false_eq_true, if_false]
    rw [sum_map_congr_perm (ordered_actions_perm board)
      (fun a ha => mm_cnt_order (board.length + 1) true (resultFn board a))]

/-! Alpha-beta never visits more nodes than minimax (same ordering flag). -/

theorem abLoopMax_cnt_le {fc : Nat → Int → Int × Nat} {be : Int} {gc : Nat → Nat}
    (hf : ∀ a al2, (fc a al2).2 ≤ gc a) :
    ∀ (l : List Nat) (v al : Int) (n : Nat),
      (abLoopMax fc be l v al n).2 ≤ n + (l.map gc).sum := by
  intro l
  induction l with
  | nil => intro v al n; simp [abLoopMax]
  | cons a rest ih =>
      intro v al n
      rw [abLoopMax_cons]
      split
      · have := hf a al
        simp only [List.map_cons, List.sum_cons]
        omega
      · have h1 := ih (max v (fc a al).1) (max al (max v (fc a al).1)) (n + (fc a al).2)
        have h2 := hf a al
        simp only [List.map_cons, List.sum_cons]
        omega

theorem abLoopMin_cnt_le {fc : Nat → Int → Int × Nat} {al : Int} {gc : Nat → Nat}
    (hf : ∀ a be2, (fc a be2).2 ≤ gc a) :
    ∀ (l : List Nat) (v be : Int) (n : Nat),
      (abLoopMin fc al l v be n).2 ≤ n + (l.map gc).sum := by
  intro l
  induction l with
  | nil => intro v be n; simp [abLoopMin]
  | cons a rest ih =>
      intro v be n
      rw [abLoopMin_cons]
      split
      · have := hf a be
        simp only [List.map_cons, List.sum_cons]
        omega
      · have h1 := ih (min v (fc a be).1) (min be (min v (fc a be).1)) (n + (fc a be).2)
        have h2 := hf a be
        simp only [List.map_cons, List.sum_cons]
        omega

theorem ab_mm_cnt :
    ∀ (fuel : Nat) (o isMax : Bool) (s : List Cell) (al be : Int),
      (abVal o isMax fuel s al be).2 ≤ (mmVal o isMax fuel s).2 := by
  intro fuel
  induction fuel with
  | zero => intro o isMax s al be; exact le_refl 0
  | succ fuel ih =>
      intro o isMax s al be
      rw [mmVal_succ, abVal_succ]
      by_cases ht : terminal s = true
      · rw [if_pos ht, if_pos ht]
      · rw [if_neg ht, if_neg ht, mmLoop_snd]
        cases isMax
        · simp only [Bool.false_eq_true, if_false, Bool.not_false]
          exact abLoopMin_cnt_le (fun a be2 => ih o true (resultFn s a) al be2) _ INF be 1
        · simp only [if_true, Bool.not_true]
          exact abLoopMax_cnt_le (fun a al2 => ih o false (resultFn s a) al2 be) _ (-INF) al 1

theorem abRootMax_cnt_le {fc : Nat → Int → Int × Nat} {gc : Nat → Nat}
    (hf : ∀ a al2, (fc a al2).2 ≤ gc a) :
    ∀ (l : List Nat) (bA : Option Nat) (bV al : Int) (n : Nat),
      (abRootMax fc l bA bV al n).2.2 ≤ n + (l.map gc).sum := by
  intro l
  induction l with
  | nil => intro bA bV al n; simp [abRootMax]
  | cons a rest ih =>
      intro bA bV al n
      rw [abRootMax_cons]
      split
      · have h1 := ih (some a) (fc a al).1 (max al (fc a al).1) (n + (fc a al).2)
        have h2 := hf a al
        simp only [List.map_cons, List.sum_cons]
        omega
      · have h1 := ih bA bV (max al bV) (n + (fc a al).2)
        have h2 := hf a al
        simp only [List.map_cons, List.sum_cons]
        omega

theorem abRootMin_cnt_le {fc : Nat → Int → Int × Nat} {gc : Nat → Nat}
    (hf : ∀ a be2, (fc a be2).2 ≤ gc a) :
    ∀ (l : List Nat) (bA : Option Nat) (bV be : Int) (n : Nat),
      (abRootMin fc l bA bV be n).2.2 ≤ n + (l.map gc).sum := by
  intro l
  induction l with
  | nil => intro bA bV be n; simp [abRootMin]
  | cons a rest ih =>
      intro bA bV be n
      rw [abRootMin_cons]
      split
      · have h1 := ih (some a) (fc a be).1 (min be (fc a be).1) (n + (fc a be).2)
        have h2 := hf a be
        simp only [List.map_cons, List.sum_cons]
        omega
      · have h1 := ih bA bV (min be bV) (n + (fc a be).2)
        have h2 := hf a be
        simp only [List.map_cons, List.sum_cons]
        omega

theorem ab_mm_cnt_root (board : List Cell) (o : Bool) :
    (alphabeta_best_action board o).2.2 ≤ (minimax_best_action board o).2.2 := by
  unfold minimax_best_action alphabeta_best_action
  by_cases hp : player board = Cell.X
  · rw [if_pos hp, if_pos hp, mmRootMax_cnt]
    exact abRootMax_cnt_le
      (fun a al2 => ab_mm_cnt (board.length + 1) o false (resultFn board a) al2 INF)
      _ none (-INF) (-INF) 0
  · rw [if_neg hp, if_neg hp, mmRootMin_cnt]
    exact abRootMin_cnt_le
      (fun a be2 => ab_mm_cnt (board.length + 1) o true (resultFn board a) (-INF) be2)
      _ none INF INF 0

/-! The evaluators against the specification-side game value. -/

theorem gv_succ (isMax : Bool) (fuel : Nat) (s : List Cell) :
    gv isMax (fuel + 1) s =
      if terminal s then utility s
      else
        valFold (fun a => gv (!isMax) fuel (resultFn s a)) isMax (actions s)
          (if isMax then -INF else INF) := rfl

theorem mm_eq_gv :
    ∀ (fuel : Nat) (o isMax : Bool) (s : List Cell),
      (mmVal o isMax fuel s).1 = gv isMax fuel s := by
  intro fuel
  induction fuel with
  | zero => intro o isMax s; rfl
  | succ fuel ih =>
      intro o isMax s
      rw [mmVal_succ, gv_succ]
      by_cases ht : terminal s = true
      · rw [if_pos ht, if_pos ht]
      · rw [if_neg ht, if_neg ht, mmLoop_fst]
        exact (valFold_congr (fun a ha => ih o (!isMax) (resultFn s a)) _).trans
          (valFold_perm (it_perm o s) _)

theorem gv_fuel :
    ∀ (f1 : Nat) {f2 : Nat} {isMax : Bool} {s : List Cell},
      countEmpty s < f1 → countEmpty s < f2 → gv isMax f1 s = gv isMax f2 s := by
  intro f1
  induction f1 with
  | zero => intro f2 isMax s h1 h2; omega
  | succ f1 ih =>
      intro f2 isMax s h1 h2
      rcases f2 with _ | f2
      · omega
      · rw [gv_succ, gv_succ]
        by_cases ht : terminal s = true
        · rw [if_pos ht, if_pos ht]
        · rw [if_neg ht, if_neg ht]
          have hpos := countEmpty_pos_of_not_terminal (Bool.not_eq_true _ ▸ ht)
          apply valFold_congr
          intro a ha
          have hc := countEmpty_resultFn ha
          exact ih (by omega) (by omega)

theorem gameValue_eq (board : List Cell) (o : Bool) (h : terminal board = false) :
    (minimax_best_action board o).2.1 = gameValue board := by
  unfold minimax_best_action gameValue
  have hpos := countEmpty_pos_of_not_terminal h
  have hlen := countEmpty_le_length board
  have hterm : ¬terminal board = true := by rw [h]; exact Bool.false_ne_true
  by_cases hp : player board = Cell.X
  · have hgv : gv true (board.length + 1) board =
        valFold (fun a => gv false board.length (resultFn board a)) true
          (actions board) (-INF) := by
      rw [gv_succ, if_neg hterm]
      rfl
    rw [if_pos hp, mmRootMax_val, decide_eq_true hp, hgv]
    refine (valFold_congr ?_ _).trans (valFold_perm (it_perm o board) _)
    intro a ha
    have hmem : a ∈ actions board := (List.Perm.mem_iff (it_perm o board)).1 ha
    have hc := countEmpty_resultFn hmem
    rw [mm_eq_gv]
    exact gv_fuel (board.length + 1) (by omega) (by omega)
  · have hgv : gv false (board.length + 1) board =
        valFold (fun a => gv true board.length (resultFn board a)) false
          (actions board) INF := by
      rw [gv_succ, if_neg hterm]
      rfl
    rw [if_neg hp, mmRootMin_val, decide_eq_false hp, hgv]
    refine (valFold_congr ?_ _).trans (valFold_perm (it_perm o board) _)
    intro a ha
    have hmem : a ∈ actions board := (List.Perm.mem_iff (it_perm o board)).1 ha
    have hc := countEmpty_resultFn hmem
    rw [mm_eq_gv]
    exact gv_fuel (board.length + 1) (by omega) (by omega)

/-! The action stored by the root loops is one of the listed actions and
achieves the returned value. -/

theorem mmRootMax_cons (f : Nat → Int × Nat) (a : Nat) (rest : List Nat)
    (bA : Option Nat) (bV : Int) (n : Nat) :
    mmRootMax f (a :: rest) bA bV n =
      if bV < (f a).1 then mmRootMax f rest (some a) (f a).1 (n + (f a).2)
      else mmRootMax f rest bA bV (n + (f a).2) := rfl

theorem mmRootMin_cons (f : Nat → Int × Nat) (a : Nat) (rest : List Nat)
    (bA : Option Nat) (bV : Int) (n : Nat) :
    mmRootMin f (a :: rest) bA bV n =
      if (f a).1 < bV then mmRootMin f rest (some a) (f a).1 (n + (f a).2)
      else mmRootMin f rest bA bV (n + (f a).2) := rfl

theorem mmRootMax_spec (f : Nat → Int × Nat) :
    ∀ (l : List Nat) (bA : Option Nat) (bV : Int) (n : Nat),
      ((mmRootMax f l bA bV n).1 = bA ∧ (mmRootMax f l bA bV n).2.1 = bV) ∨
      (∃ a ∈ l, (mmRootMax f l bA bV n).1 = some a ∧
        (f a).1 = (mmRootMax f l bA bV n).2.1) := by
  intro l
  induction l with
  | nil => intro bA bV n; exact Or.inl ⟨rfl, rfl⟩
  | cons a rest ih =>
      intro bA bV n
      rw [mmRootMax_cons]
      rcases lt_or_ge bV ((f a).1) with hlt | hge
      · rw [if_pos hlt]
        rcases ih (some a) ((f a).1) (n + (f a).2) with ⟨h1, h2⟩ | ⟨b, hb, h1, h2⟩
        · exact Or.inr ⟨a, List.mem_cons_self a rest, h1, h2.symm⟩
        · exact Or.inr ⟨b, List.mem_cons_of_mem a hb, h1, h2⟩
      · rw [if_neg (not_lt.2 hge)]
        rcases ih bA bV (n + (f a).2) with ⟨h1, h2⟩ | ⟨b, hb, h1, h2⟩
        · exact Or.inl ⟨h1, h2⟩
        · exact Or.inr ⟨b, List.mem_cons_of_mem a hb, h1, h2⟩

theorem mmRootMin_spec (f : Nat → Int × Nat) :
    ∀ (l : List Nat) (bA : Option Nat) (bV : Int) (n : Nat),
      ((mmRootMin f l bA bV n).1 = bA ∧ (mmRootMin f l bA bV n).2.1 = bV) ∨
      (∃ a ∈ l, (mmRootMin f l bA bV n).1 = some a ∧
        (f a).1 = (mmRootMin f l bA bV n).2.1) := by
  intro l
  induction l with
  | nil => intro bA bV n; exact Or.inl ⟨rfl, rfl⟩
  | cons a rest ih =>
      intro bA bV n
      rw [mmRootMin_cons]
      rcases lt_or_ge ((f a).1) bV with hlt | hge
      · rw [if_pos hlt]
        rcases ih (some a) ((f a).1) (n + (f a).2) with ⟨h1, h2⟩ | ⟨b, hb, h1, h2⟩
        · exact Or.inr ⟨a, List.mem_cons_self a rest, h1, h2.symm⟩
        · exact Or.inr ⟨b, List.mem_cons_of_mem a hb, h1, h2⟩
      · rw [if_neg (not_lt.2 hge)]
        rcases ih bA bV (n + (f a).2) with ⟨h1, h2⟩ | ⟨b, hb, h1, h2⟩
        · exact Or.inl ⟨h1, h2⟩
        · exact Or.inr ⟨b, List.mem_cons_of_mem a hb, h1, h2⟩

theorem minimax_argmax (board : List Cell) (o : Bool) (h : terminal board = false) :
    ∃ a, (minimax_best_action board o).1 = some a ∧ a ∈ actions board ∧
      (mmVal o (!(decide (player board = Cell.X))) (board.length + 1)
        (resultFn board a)).1 = (minimax_best_action board o).2.1 := by
  have hne := it_ne_nil (o := o) h
  unfold minimax_best_action
  by_cases hp : player board = Cell.X
  · rw [if_pos hp]
    rw [decide_eq_true hp]
    simp only [Bool.not_true]
    rcases mmRootMax_spec (fun a => mmVal o false (board.length + 1) (resultFn board a))
      (if o then ordered_actions board else actions board) none (-INF) 0 with ⟨h1, h2⟩ | hex
    · exfalso
      rw [mmRootMax_val] at h2
      have hlb : (-1 : Int) ≤ valFold
          (fun a => (mmVal o false (board.length + 1) (resultFn board a)).1) true
          (if o then ordered_actions board else actions board) (-INF) :=
        valFold_true_lb (fun a ha => mmVal_fst_lb (board.length + 1) o false (resultFn board a))
          hne (-INF)
      rw [h2] at hlb
      exact absurd hlb (by unfold INF; norm_num)
    · rcases hex with ⟨a, ha, h1, h2⟩
      exact ⟨a, h1, (List.Perm.mem_iff (it_perm o board)).1 ha, h2⟩
  · rw [if_neg hp]
    rw [decide_eq_false hp]
    simp only [Bool.not_false]
    rcases mmRootMin_spec (fun a => mmVal o true (board.length + 1) (resultFn board a))
      (if o then ordered_actions board else actions board) none INF 0 with ⟨h1, h2⟩ | hex
    · exfalso
      rw [mmRootMin_val] at h2
      have hub : valFold
          (fun a => (mmVal o true (board.length + 1) (resultFn board a)).1) false
          (if o then ordered_actions board else actions board) INF ≤ 1 :=
        valFold_false_ub (fun a ha => mmVal_fst_ub (board.length + 1) o true (resultFn board a))
          hne INF
      rw [h2] at hub
      exact absurd hub (by unfold INF; norm_num)
    · rcases hex with ⟨a, ha, h1, h2⟩
      exact ⟨a, h1, (List.Perm.mem_iff (it_perm o board)).1 ha, h2⟩

/-! Behaviour of the evaluators on terminal roots. -/

theorem mmVal_terminal {s : List Cell} (fuel : Nat) (o isMax : Bool)
    (h : terminal s = true) : mmVal o isMax (fuel + 1) s = (utility s, 1) := by
  rw [mmVal_succ, if_pos h]

theorem abVal_terminal {s : List Cell} (fuel : Nat) (o isMax : Bool) (al be : Int)
    (h : terminal s = true) : abVal o isMax (fuel + 1) s al be = (utility s, 1) := by
  rw [abVal_succ, if_pos h]

theorem ordered_actions_nil {board : List Cell} (h : actions board = []) :
    ordered_actions board = [] := by
  unfold ordered_actions
  rw [h]
  rfl

theorem it_nil {o : Bool} {board : List Cell} (h : actions board = []) :
    (if o then ordered_actions board else actions board) = [] := by
  cases o
  · simpa using h
  · simpa using ordered_actions_nil h

theorem mmRootMax_some_stays (f : Nat → Int × Nat) :
    ∀ (l : List Nat) (a0 : Nat) (bV : Int) (n : Nat),
      (mmRootMax f l (some a0) bV n).1 ≠ none := by
  intro l
  induction l with
  | nil => intro a0 bV n hc; cases hc
  | cons a rest ih =>
      intro a0 bV n
      rw [mmRootMax_cons]
      split
      · exact ih a _ _
      · exact ih a0 _ _

theorem mmRootMin_some_stays (f : Nat → Int × Nat) :
    ∀ (l : List Nat) (a0 : Nat) (bV : Int) (n : Nat),
      (mmRootMin f l (some a0) bV n).1 ≠ none := by
  intro l
  induction l with
  | nil => intro a0 bV n hc; cases hc
  | cons a rest ih =>
      intro a0 bV n
      rw [mmRootMin_cons]
      split
      · exact ih a _ _
      · exact ih a0 _ _

theorem mmRootMax_ne_none (f : Nat → Int × Nat) :
    ∀ (l : List Nat) (bV : Int) (n : Nat),
      (∃ a ∈ l, bV < (f a).1) → (mmRootMax f l none bV n).1 ≠ none := by
  intro l
  induction l with
  | nil => intro bV n h; rcases h with ⟨a, ha, -⟩; cases ha
  | cons a rest ih =>
      intro bV n h
      rw [mmRootMax_cons]
      by_cases hlt : bV < (f a).1
      · rw [if_pos hlt]
        exact mmRootMax_some_stays f rest a ((f a).1) (n + (f a).2)
      · rw [if_neg hlt]
        rcases h with ⟨b, hb, hbV⟩
        rcases List.mem_cons.1 hb with rfl | hmem
        · exact absurd hbV hlt
        · exact ih bV (n + (f a).2) ⟨b, hmem, hbV⟩

theorem mmRootMin_ne_none (f : Nat → Int × Nat) :
    ∀ (l : List Nat) (bV : Int) (n : Nat),
      (∃ a ∈ l, (f a).1 < bV) → (mmRootMin f l none bV n).1 ≠ none := by
  intro l
  induction l with
  | nil => intro bV n h; rcases h with ⟨a, ha, -⟩; cases ha
  | cons a rest ih =>
      intro bV n h
      rw [mmRootMin_cons]
      by_cases hlt : (f a).1 < bV
      · rw [if_pos hlt]
        exact mmRootMin_some_stays f rest a ((f a).1) (n + (f a).2)
      · rw [if_neg hlt]
        rcases h with ⟨b, hb, hbV⟩
        rcases List.mem_cons.1 hb with rfl | hmem
        · exact absurd hbV hlt
        · exact ih bV (n + (f a).2) ⟨b, hmem, hbV⟩

theorem abRootMax_some_stays (fc : Nat → Int → Int × Nat) :
    ∀ (l : List Nat) (a0 : Nat) (bV al : Int) (n : Nat),
      (abRootMax fc l (some a0) bV al n).1 ≠ none := by
  intro l
  induction l with
  | nil => intro a0 bV al n hc; cases hc
  | cons a rest ih =>
      intro a0 bV al n
      rw [abRootMax_cons]
      split
      · exact ih a _ _ _
      · exact ih a0 _ _ _

theorem abRootMin_some_stays (fc : Nat → Int → Int × Nat) :
    ∀ (l : List Nat) (a0 : Nat) (bV be : Int) (n : Nat),
      (abRootMin fc l (some a0) bV be n).1 ≠ none := by
  intro l
  induction l with
  | nil => intro a0 bV be n hc; cases hc
  | cons a rest ih =>
      intro a0 bV be n
      rw [abRootMin_cons]
      split
      · exact ih a _ _ _
      · exact ih a0 _ _ _

theorem abRootMax_ne_none (fc : Nat → Int → Int × Nat) :
    ∀ (l : List Nat) (bV al : Int) (n : Nat),
      (∃ a ∈ l, ∀ al2, bV < (fc a al2).1) → (abRootMax fc l none bV al n).1 ≠ none := by
  intro l
  induction l with
  | nil => intro bV al n h; rcases h with ⟨a, ha, -⟩; cases ha
  | cons a rest ih =>
      intro bV al n h
      rw [abRootMax_cons]
      by_cases hlt : bV < (fc a al).1
      · rw [if_pos hlt]
        exact abRootMax_some_stays fc rest a _ _ _
      · rw [if_neg hlt]
        rcases h with ⟨b, hb, hbV⟩
        rcases List.mem_cons.1 hb with rfl | hmem
        · exact absurd (hbV al) hlt
        · exact ih bV (max al bV) (n + (fc a al).2) ⟨b, hmem, hbV⟩

theorem abRootMin_ne_none (fc : Nat → Int → Int × Nat) :
    ∀ (l : List Nat) (bV be : Int) (n : Nat),
      (∃ a ∈ l, ∀ be2, (fc a be2).1 < bV) → (abRootMin fc l none bV be n).1 ≠ none := by
  intro l
  induction l with
  | nil => intro bV be n h; rcases h with ⟨a, ha, -⟩; cases ha
  | cons a rest ih =>
      intro bV be n h
      rw [abRootMin_cons]
      by_cases hlt : (fc a be).1 < bV
      · rw [if_pos hlt]
        exact abRootMin_some_stays fc rest a _ _ _
      · rw [if_neg hlt]
        rcases h with ⟨b, hb, hbV⟩
        rcases List.mem_cons.1 hb with rfl | hmem
        · exact absurd (hbV be) hlt
        · exact ih bV (min be bV) (n + (fc a be).2) ⟨b, hmem, hbV⟩

theorem abRootMax_cnt_exact {fc : Nat → Int → Int × Nat} {gc : Nat → Nat} :
    ∀ (l : List Nat), (∀ a ∈ l, ∀ al2, (fc a al2).2 = gc a) →
      ∀ (bA : Option Nat) (bV al : Int) (n : Nat),
        (abRootMax fc l bA bV al n).2.2 = n + (l.map gc).sum := by
  intro l
  induction l with
  | nil => intro hf bA bV al n; simp [abRootMax]
  | cons a rest ih =>
      intro hf bA bV al n
      have ihr := ih (fun b hb => hf b (List.mem_cons_of_mem a hb))
      rw [abRootMax_cons]
      split
      · rw [ihr]
        have := hf a (List.mem_cons_self a rest) al
        simp only [List.map_cons, List.sum_cons]
        omega
      · rw [ihr]
        have := hf a (List.mem_cons_self a rest) al
        simp only [List.map_cons, List.sum_cons]
        omega

theorem abRootMin_cnt_exact {fc : Nat → Int → Int × Nat} {gc : Nat → Nat} :
    ∀ (l : List Nat), (∀ a ∈ l, ∀ be2, (fc a be2).2 = gc a) →
      ∀ (bA : Option Nat) (bV be : Int) (n : Nat),
        (abRootMin fc l bA bV be n).2.2 = n + (l.map gc).sum := by
  intro l
  induction l with
  | nil => intro hf bA bV be n; simp [abRootMin]
  | cons a rest ih =>
      intro hf bA bV be n
      have ihr := ih (fun b hb => hf b (List.mem_cons_of_mem a hb))
      rw [abRootMin_cons]
      split
      · rw [ihr]
        have := hf a (List.mem_cons_self a rest) be
        simp only [List.map_cons, List.sum_cons]
        omega
      · rw [ihr]
        have := hf a (List.mem_cons_self a rest) be
        simp only [List.map_cons, List.sum_cons]
        omega

theorem sum_map_ones (gc : Nat → Nat) (hg : ∀ a, gc a = 1) :
    ∀ (l : List Nat), (l.map gc).sum = l.length := by
  intro l
  induction l with
  | nil => rfl
  | cons a rest ih =>
      simp only [List.map_cons, List.sum_cons, ih, hg a, List.length_cons]
      omega

/-! Facts for the contracts of actions, result and utility. -/

theorem getD_lt {board : List Cell} {a : Nat} (ha : a < board.length) :
    board.getD a Cell.E = board[a] := by
  rw [List.getD_eq_getElem?_getD, List.getElem?_eq_getElem ha]
  rfl

theorem actions_ne_nil_iff (board : List Cell) :
    actions board ≠ [] ↔ Cell.E ∈ board := by
  constructor
  · intro h
    rcases List.exists_mem_of_ne_nil _ h with ⟨a, ha⟩
    rcases mem_actions.1 ha with ⟨hlt, hE⟩
    rw [getD_lt hlt] at hE
    rw [← hE]
    exact board.getElem_mem hlt
  · intro h
    rcases List.mem_iff_getElem.1 h with ⟨i, hi, hget⟩
    have : i ∈ actions board := mem_actions.2 ⟨hi, by rw [getD_lt hi, hget]⟩
    intro hnil
    rw [hnil] at this
    cases this

theorem result_spec (board : List Cell) (a : Nat) (ha : a < board.length) :
    ((result board a = Except.error MoveError.invalidMove) ↔ a ∉ actions board) ∧
    (a ∈ actions board → result board a = Except.ok (board.set a (player board))) := by
  have hsome : board[a]? = some board[a] := List.getElem?_eq_getElem ha
  by_cases hE : board[a] = Cell.E
  · have hmem : a ∈ actions board := mem_actions.2 ⟨ha, by rw [getD_lt ha, hE]⟩
    have hok : result board a = Except.ok (board.set a (player board)) := by
      unfold result
      rw [hsome]
      exact if_pos hE
    constructor
    · rw [hok]
      constructor
      · intro hc; cases hc
      · intro hc; exact absurd hmem hc
    · intro _; exact hok
  · have hmem : a ∉ actions board := by
      intro hmem
      rcases mem_actions.1 hmem with ⟨-, hgd⟩
      rw [getD_lt ha] at hgd
      exact hE hgd
    have herr : result board a = Except.error MoveError.invalidMove := by
      unfold result
      rw [hsome]
      exact if_neg hE
    constructor
    · rw [herr]
      exact ⟨fun _ => hmem, fun _ => rfl⟩
    · intro hc; exact absurd hc hmem

theorem utility_no_winner (board : List Cell) (h : winner board = none) :
    utility board = 0 := by
  unfold utility
  rw [h]

/-- terminal_root_spec: what the two evaluators actually do on a terminal
root.  With no empty cell the root loops never run: both return a null
action, the untouched sentinel best value, and a node count of 0 (the
counter is only incremented inside the recursive value functions, which
the roots call once per child).  With empty cells remaining (a won board)
every child is still terminal, so both return some action and a node
count equal to the number of empty cells. -/
theorem terminal_root_spec (board : List Cell) (o : Bool) (h : terminal board = true) :
    (actions board = [] →
      minimax_best_action board o = (none, if player board = Cell.X then -INF else INF, 0) ∧
      alphabeta_best_action board o = (none, if player board = Cell.X then -INF else INF, 0)) ∧
    (actions board ≠ [] →
      (minimax_best_action board o).1 ≠ none ∧
      (alphabeta_best_action board o).1 ≠ none ∧
      (minimax_best_action board o).2.2 = (actions board).length ∧
      (alphabeta_best_action board o).2.2 = (actions board).length) := by
  constructor
  · intro ha
    have hit := @it_nil o board ha
    constructor
    · unfold minimax_best_action
      rw [hit]
      by_cases hp : player board = Cell.X
      · rw [if_pos hp, if_pos hp]; rfl
      · rw [if_neg hp, if_neg hp]; rfl
    · unfold alphabeta_best_action
      rw [hit]
      by_cases hp : player board = Cell.X
      · rw [if_pos hp, if_pos hp]; rfl
      · rw [if_neg hp, if_neg hp]; rfl
  · intro ha
    have hchild : ∀ a ∈ actions board, terminal (resultFn board a) = true :=
      fun a ham => terminal_resultFn h ham
    have hmem : ∀ a ∈ (if o then ordered_actions board else actions board),
        a ∈ actions board :=
      fun a ham => (List.Perm.mem_iff (it_perm o board)).1 ham
    have hitne : (if o then ordered_actions board else actions board) ≠ [] := by
      intro hn
      have hp2 := it_perm o board
      rw [hn] at hp2
      exact ha (List.Perm.eq_nil hp2.symm)
    have hlen : (if o then ordered_actions board else actions board).length =
        (actions board).length := (it_perm o board).length_eq
    refine ⟨?_, ?_, ?_, ?_⟩
    · unfold minimax_best_action
      rcases List.exists_mem_of_ne_nil _ hitne with ⟨b, hb⟩
      by_cases hp : player board = Cell.X
      · rw [if_pos hp]
        apply mmRootMax_ne_none
        refine ⟨b, hb, ?_⟩
        rw [mmVal_terminal board.length o false (hchild b (hmem b hb))]
        exact lt_of_lt_of_le (by unfold INF; norm_num) (utility_lb _)
      · rw [if_neg hp]
        apply mmRootMin_ne_none
        refine ⟨b, hb, ?_⟩
        rw [mmVal_terminal board.length o true (hchild b (hmem b hb))]
        exact lt_of_le_of_lt (utility_ub _) one_lt_INF
    · unfold alphabeta_best_action
      rcases List.exists_mem_of_ne_nil _ hitne with ⟨b, hb⟩
      by_cases hp : player board = Cell.X
      · rw [if_pos hp]
        apply abRootMax_ne_none
        refine ⟨b, hb, fun al2 => ?_⟩
        rw [abVal_terminal board.length o false al2 INF (hchild b (hmem b hb))]
        exact lt_of_lt_of_le (by unfold INF; norm_num) (utility_lb _)
      · rw [if_neg hp]
        apply abRootMin_ne_none
        refine ⟨b, hb, fun be2 => ?_⟩
        rw [abVal_terminal board.length o true (-INF) be2 (hchild b (hmem b hb))]
        exact lt_of_le_of_lt (utility_ub _) one_lt_INF
    · unfold minimax_best_action
      by_cases hp : player board = Cell.X
      · rw [if_pos hp, mmRootMax_cnt]
        rw [map_congr_mem _ (fun a ham => by
          rw [mmVal_terminal board.length o false (hchild a (hmem a ham))])]
        rw [sum_map_ones (fun a => 1) (fun a => rfl)]
        rw [hlen]
        omega
      · rw [if_neg hp, mmRootMin_cnt]
        rw [map_congr_mem _ (fun a ham => by
          rw [mmVal_terminal board.length o true (hchild a (hmem a ham))])]
        rw [sum_map_ones (fun a => 1) (fun a => rfl)]
        rw [hlen]
        omega
    · unfold alphabeta_best_action
      by_cases hp : player board = Cell.X
      · rw [if_pos hp]
        rw [abRootMax_cnt_exact _ (fun a ham al2 => by
          rw [abVal_terminal board.length o false al2 INF (hchild a (hmem a ham))])]
        rw [sum_map_ones (fun a => 1) (fun a => rfl)]
        rw [hlen]
        omega
      · rw [if_neg hp]
        rw [abRootMin_cnt_exact _ (fun a ham be2 => by
          rw [abVal_terminal board.length o true (-INF) be2 (hchild a (hmem a ham))])]
        rw [sum_map_ones (fun a => 1) (fun a => rfl)]
        rw [hlen]
        omega

/-! The claims. -/

/-- C1: for every board position and every ordering flag, the value
computed by minimax_best_action (its internal best_value at return)
equals the value computed by alphabeta_best_action on the same inputs. -/
theorem claim_C1_value_agreement (board : List Cell) (o : Bool) :
    (minimax_best_action board o).2.1 = (alphabeta_best_action board o).2.1 :=
  mm_ab_value board o

/-- C2: on every non-terminal board position, the value computed by
minimax_best_action is the exact game-theoretic value gameValue of the
position (optimal alternating play by both actors, terminal positions
scored by utility), and the returned action a is a legal action whose
successor position has spec-side value, for the opponent to move, equal
to that same game value: applying a and playing optimally thereafter
achieves exactly gameValue board. -/
theorem claim_C2_minimax_optimal (board : List Cell) (o : Bool)
    (h : terminal board = false) :
    (minimax_best_action board o).2.1 = gameValue board ∧
    ∃ a, (minimax_best_action board o).1 = some a ∧ a ∈ actions board ∧
      gv (!(decide (player board = Cell.X))) board.length (resultFn board a) =
        gameValue board := by
  refine ⟨gameValue_eq board o h, ?_⟩
  rcases minimax_argmax board o h with ⟨a, h1, h2, h3⟩
  refine ⟨a, h1, h2, ?_⟩
  have hc := countEmpty_resultFn h2
  have hpos := countEmpty_pos_of_not_terminal h
  have hlen := countEmpty_le_length board
  have hfuel : gv (!(decide (player board = Cell.X))) (board.length + 1) (resultFn board a) =
      gv (!(decide (player board = Cell.X))) board.length (resultFn board a) :=
    gv_fuel (board.length + 1) (by omega) (by omega)
  rw [← gameValue_eq board o h, ← h3, mm_eq_gv, ← hfuel]

/-- C2 witness: the benchmark mid-game board is non-terminal and the
theorem applies to it. -/
theorem claim_C2_minimax_optimal_witness :
    terminal midBoard = false ∧
    ((minimax_best_action midBoard false).2.1 = gameValue midBoard ∧
      ∃ a, (minimax_best_action midBoard false).1 = some a ∧ a ∈ actions midBoard ∧
        gv (!(decide (player midBoard = Cell.X))) midBoard.length (resultFn midBoard a) =
          gameValue midBoard) :=
  ⟨by decide, claim_C2_minimax_optimal midBoard false (by decide)⟩

/-- C3 counterexample: on the full drawn board the claim fails: both
evaluators report a node count of 0, not 1, and the internal best value
is the untouched INF sentinel, not the position score utility = 0. -/
theorem claim_C3_counterexample :
    terminal drawBoard = true ∧
    (minimax_best_action drawBoard false).1 = none ∧
    (alphabeta_best_action drawBoard false).1 = none ∧
    (minimax_best_action drawBoard false).2.2 = 0 ∧
    (alphabeta_best_action drawBoard false).2.2 = 0 ∧
    (0 : Nat) ≠ 1 ∧
    (minimax_best_action drawBoard false).2.1 = INF ∧
    utility drawBoard = 0 ∧ INF ≠ (0 : Int) := by
  refine ⟨by decide, by decide, by decide, by decide, by decide, by decide,
    by decide, by decide, ?_⟩
  unfold INF
  norm_num

/-- C3 amended: on a terminal board with no empty cell both evaluators
return a null action, the untouched sentinel value and a node count of
0 (not 1); on a terminal board with empty cells left (a won position)
both return a non-null action and a node count equal to the number of
empty cells. -/
theorem claim_C3_terminal_amended (board : List Cell) (o : Bool)
    (h : terminal board = true) :
    (actions board = [] →
      minimax_best_action board o = (none, if player board = Cell.X then -INF else INF, 0) ∧
      alphabeta_best_action board o = (none, if player board = Cell.X then -INF else INF, 0)) ∧
    (actions board ≠ [] →
      (minimax_best_action board o).1 ≠ none ∧
      (alphabeta_best_action board o).1 ≠ none ∧
      (minimax_best_action board o).2.2 = (actions board).length ∧
      (alphabeta_best_action board o).2.2 = (actions board).length) :=
  terminal_root_spec board o h

/-- C3 amended witness: the board won by X with four empty cells is
terminal and the amended theorem applies to it. -/
theorem claim_C3_terminal_amended_witness :
    terminal wonBoard = true ∧
    ((actions wonBoard = [] →
      minimax_best_action wonBoard false = (none, if player wonBoard = Cell.X then -INF else INF, 0) ∧
      alphabeta_best_action wonBoard false = (none, if player wonBoard = Cell.X then -INF else INF, 0)) ∧
    (actions wonBoard ≠ [] →
      (minimax_best_action wonBoard false).1 ≠ none ∧
      (alphabeta_best_action wonBoard false).1 ≠ none ∧
      (minimax_best_action wonBoard false).2.2 = (actions wonBoard).length ∧
      (alphabeta_best_action wonBoard false).2.2 = (actions wonBoard).length)) :=
  ⟨by decide, claim_C3_terminal_amended wonBoard false (by decide)⟩

/-- C4 counterexample: the legal non-terminal position X X O / O X O /
_ _ _ has more than one ply of branching (three root moves, and after
the move to cell 6 the child is non-terminal with two further moves),
yet alpha-beta visits exactly as many nodes as minimax, under both
ordering flags: the strictness part of the claim is false. -/
theorem claim_C4_counterexample :
    terminal bc4Board = false ∧
    2 ≤ (actions bc4Board).length ∧
    terminal (resultFn bc4Board 6) = false ∧
    2 ≤ (actions (resultFn bc4Board 6)).length ∧
    (alphabeta_best_action bc4Board false).2.2 = (minimax_best_action bc4Board false).2.2 ∧
    (alphabeta_best_action bc4Board true).2.2 = (minimax_best_action bc4Board true).2.2 := by
  decide

/-- C4 amended: on every non-terminal board position and for both
ordering flags, the node count of alpha-beta is at most the node count of minimax;
the strict inequality claimed for positions with more than one ply of
branching does not hold in general. -/
theorem claim_C4_pruning_amended (board : List Cell) (o : Bool)
    (h : terminal board = false) :
    (alphabeta_best_action board o).2.2 ≤ (minimax_best_action board o).2.2 :=
  ab_mm_cnt_root board o

/-- C4 amended witness: the benchmark mid-game board is non-terminal and
the amended theorem applies to it. -/
theorem claim_C4_pruning_amended_witness :
    terminal midBoard = false ∧
    (alphabeta_best_action midBoard false).2.2 ≤ (minimax_best_action midBoard false).2.2 :=
  ⟨by decide, claim_C4_pruning_amended midBoard false (by decide)⟩

/-- C5 counterexample: the board won by X with four empty cells is
terminal, yet actions returns the non-empty list of empty cells
[5, 6, 7, 8]: actions is not empty on every terminal position. -/
theorem claim_C5_counterexample :
    terminal wonBoard = true ∧ actions wonBoard = [5, 6, 7, 8] ∧
    actions wonBoard ≠ [] := by decide

/-- C5 amended: actions returns a non-empty list exactly when the board
has an empty cell; it is empty only for full boards, so a position that
is terminal because a player has won while empty cells remain still
gets a non-empty action list. -/
theorem claim_C5_actions_amended (board : List Cell) :
    actions board ≠ [] ↔ Cell.E ∈ board :=
  actions_ne_nil_iff board

/-- C6 counterexample: on the legal non-terminal position _ _ _ /
X X O / O X O, enabling move ordering increases the alpha-beta node
count (10 nodes ordered against 8 unordered). -/
theorem claim_C6_counterexample :
    terminal bc6Board = false ∧
    (alphabeta_best_action bc6Board true).2.2 = 10 ∧
    (alphabeta_best_action bc6Board false).2.2 = 8 ∧
    ¬((alphabeta_best_action bc6Board true).2.2 ≤
      (alphabeta_best_action bc6Board false).2.2) := by decide

/-- C6 amended: move ordering does not uniformly shrink the alpha-beta
node count: on the benchmark mid-game board the ordered count (7) is at
most the unordered count (9), but on the position bc6Board ordering
strictly increases the count. -/
theorem claim_C6_ordering_amended :
    (alphabeta_best_action midBoard true).2.2 ≤ (alphabeta_best_action midBoard false).2.2 ∧
    (alphabeta_best_action bc6Board false).2.2 < (alphabeta_best_action bc6Board true).2.2 := by
  decide

/-- C7: for each evaluator and every board position the computed value is
the same with ordering enabled and disabled. -/
theorem claim_C7_ordering_value (board : List Cell) :
    (minimax_best_action board true).2.1 = (minimax_best_action board false).2.1 ∧
    (alphabeta_best_action board true).2.1 = (alphabeta_best_action board false).2.1 := by
  refine ⟨minimax_value_order board, ?_⟩
  rw [← mm_ab_value board true, ← mm_ab_value board false]
  exact minimax_value_order board

/-- C8: for every board and every in-range action index, result fails
with the InvalidMove error (the ValueError of the source) exactly when
the action is not a currently legal action, and on a legal action it
deterministically returns the new board carrying the mark of the mover (the
input board itself is untouched: result builds a copy). -/
theorem claim_C8_result_contract (board : List Cell) (a : Nat)
    (ha : a < board.length) :
    ((result board a = Except.error MoveError.invalidMove) ↔ a ∉ actions board) ∧
    (a ∈ actions board → result board a = Except.ok (board.set a (player board))) :=
  result_spec board a ha

/-- C8 witness: the contract applied to the empty board and cell 0. -/
theorem claim_C8_result_contract_witness :
    0 < initial_state.length ∧
    (((result initial_state 0 = Except.error MoveError.invalidMove) ↔
      0 ∉ actions initial_state) ∧
    (0 ∈ actions initial_state →
      result initial_state 0 = Except.ok (initial_state.set 0 (player initial_state)))) :=
  ⟨by decide, claim_C8_result_contract initial_state 0 (by decide)⟩

/-- C9 counterexample: utility is a total function: invoked on the empty
board, which is not terminal, it raises nothing and returns the Score 0. -/
theorem claim_C9_counterexample :
    terminal initial_state = false ∧ utility initial_state = 0 := by decide

/-- C9 amended: utility is defined on every position; whenever there is
no winner, including every non-terminal position, it simply returns 0
and never raises an error. -/
theorem claim_C9_utility_amended (board : List Cell) (h : winner board = none) :
    utility board = 0 :=
  utility_no_winner board h

/-- C9 amended witness: the empty board has no winner and its utility
is 0. -/
theorem claim_C9_utility_amended_witness :
    winner initial_state = none ∧ utility initial_state = 0 :=
  ⟨by decide, claim_C9_utility_amended initial_state (by decide)⟩

/-- C10: for every board position, minimax visits exactly the same number
of nodes with ordering enabled as with ordering disabled: plain minimax
performs no pruning, and ordering only permutes the enumeration. -/
theorem claim_C10_minimax_count (board : List Cell) :
    (minimax_best_action board true).2.2 = (minimax_best_action board false).2.2 :=
  minimax_cnt_order board

end Games02
